import Mathlib

/-!
Verification of the bitset library (src/lib.rs).

The Rust code is shallowly embedded: `u64` words are natural numbers below
`2 ^ 64`, the word vector is a `List Nat`, wrapping multiplication is an
explicit `% 2 ^ 64`, and the unchecked vector indexing in `test` is modelled
with `Option` (a `none` result is the panicking out-of-bounds branch).
-/

/-- Branchless SWAR population count, translated from `bit_count64` in the
source.  The `u64` subtraction in the first step cannot underflow (see
`bit_count64_sub_le` below), so `Nat` subtraction models it faithfully;
`wrapping_mul` is modelled by `% 2 ^ 64`. -/
def bit_count64 (u : Nat) : Nat :=
  let x1 : Nat := u - ((u >>> 1) &&& 0x5555555555555555)
  let x2 : Nat := (x1 &&& 0x3333333333333333) + ((x1 >>> 2) &&& 0x3333333333333333)
  ((((x2 + (x2 >>> 4)) &&& 0xF0F0F0F0F0F0F0F) * 0x101010101010101) % (2 ^ 64)) >>> 56

/-- Modelled from the spec: the population count ("number of 1-bits") of a
natural number, by binary recursion.  This is the specification-side
definition that `bit_count64` is compared against. -/
def popcount : Nat → Nat
  | 0 => 0
  | n + 1 => (n + 1) % 2 + popcount ((n + 1) / 2)
decreasing_by exact Nat.div_lt_self (Nat.succ_pos n) Nat.one_lt_two

/-- The 64-bit complement (`!n` on a Rust `u64`). -/
def not64 (x : Nat) : Nat := (2 ^ 64 - 1) ^^^ x

/-- The bitset: a vector of 64-bit words and a logical bit count
(`struct BitSet { bits: Vec<u64>, nbits: usize }`). -/
structure BitSet where
  bits : List Nat
  nbits : Nat
deriving DecidableEq

namespace BitSet

/-- `blocks`: number of words needed for `nbits` bits (private helper). -/
def blocks (s : BitSet) : Nat :=
  if s.nbits % 64 == 0 then s.nbits / 64 else s.nbits / 64 + 1

/-- `BitSet::new` (via `Default`): zero bits, no words. -/
def new : BitSet := ⟨[], 0⟩

/-- `BitSet::with_capacity`: `nbits` logical bits, `blocks` zero words pushed. -/
def with_capacity (nbits : Nat) : BitSet :=
  let bitset : BitSet := ⟨[], nbits⟩
  { bitset with bits := List.replicate bitset.blocks 0 }

/-- `BitSet::from_u64`: a single pre-seeded word, logical length 64. -/
def from_u64 (v : Nat) : BitSet := ⟨[v], 64⟩

/-- `BitSet::from_vec64`: words copied from `vec`, length `64 * vec.len()`. -/
def from_vec64 (vec : List Nat) : BitSet := ⟨vec, vec.length * 64⟩

/-- `size`: the logical bit count. -/
def size (s : BitSet) : Nat := s.nbits

/-- `count`: per-word population count over `0..blocks`, folded with `+`. -/
def count (s : BitSet) : Nat :=
  ((List.range s.blocks).map (fun n => bit_count64 (s.bits.getD n 0))).foldl
    (fun sum i => sum + i) 0

/-- `test`: unchecked word access, then `(n >> (idx % 64)) & 1 == 1`.
The `Option` models the panicking index; `none` is the failure branch. -/
def test (s : BitSet) (bit_idx : Nat) : Option Bool :=
  match s.bits[bit_idx / 64]? with
  | Option.none => Option.none
  | Option.some n => Option.some (((n >>> (bit_idx % 64)) &&& 0x1) == 0x1)

/-- `any`: some word among `0..blocks` is nonzero. -/
def any (s : BitSet) : Bool :=
  (List.range s.blocks).any (fun i => s.bits.getD i 0 != 0)

/-- `none`: no bit is set. -/
def none (s : BitSet) : Bool := !s.any

/-- `set`: guarded single-bit write (`bits.get_mut` returning `None` is a
silent no-op). -/
def set (s : BitSet) (bit_idx : Nat) (v : Bool) : BitSet :=
  match s.bits[bit_idx / 64]? with
  | Option.none => s
  | Option.some n =>
    { s with
      bits := s.bits.set (bit_idx / 64)
        (if v then n ||| (0x1 <<< (bit_idx % 64))
         else n &&& not64 (0x1 <<< (bit_idx % 64))) }

/-- `reset`: zero every word in `0..blocks`. -/
def reset (s : BitSet) : BitSet :=
  { s with bits := (List.range s.blocks).foldl (fun bs i => bs.set i 0) s.bits }

/-- `flip`: guarded single-bit invert (test the bit, then clear or set it). -/
def flip (s : BitSet) (bit_idx : Nat) : BitSet :=
  match s.bits[bit_idx / 64]? with
  | Option.none => s
  | Option.some n =>
    { s with
      bits := s.bits.set (bit_idx / 64)
        (if ((n >>> (bit_idx % 64)) &&& 0x1) == 0x1
         then n &&& not64 (0x1 <<< (bit_idx % 64))
         else n ||| (0x1 <<< (bit_idx % 64))) }

/-- `flip_all`: complement every word in `0..blocks`. -/
def flip_all (s : BitSet) : BitSet :=
  { s with
    bits := (List.range s.blocks).foldl
      (fun bs i => bs.set i (not64 (bs.getD i 0))) s.bits }

/-- Well-formedness of a reachable bitset state: the word count matches
`blocks`, and every word fits in 64 bits. -/
def Wf (s : BitSet) : Prop :=
  s.bits.length = s.blocks ∧ ∀ w ∈ s.bits, w < 2 ^ 64

end BitSet

/-! ### Basic facts about `blocks` and `popcount` -/

theorem blocks_eq_ceil (s : BitSet) : s.blocks = (s.nbits + 63) / 64 := by
  unfold BitSet.blocks
  rcases Nat.eq_zero_or_pos (s.nbits % 64) with h | h
  · simp only [h, beq_self_eq_true, if_true]
    omega
  · have : (s.nbits % 64 == 0) = false := by
      simp only [beq_eq_false_iff_ne, ne_eq]
      omega
    rw [this]
    simp only [Bool.false_eq_true, if_false]
    omega

theorem popcount_div2 (n : Nat) : popcount n = n % 2 + popcount (n / 2) := by
  cases n with
  | zero => simp [popcount]
  | succ m => rw [popcount]

/-- The `u64` subtraction inside `bit_count64` never underflows. -/
theorem bit_count64_sub_le (u : Nat) : (u >>> 1) &&& 0x5555555555555555 ≤ u :=
  Nat.le_trans Nat.and_le_left
    (by rw [Nat.shiftRight_eq_div_pow]; exact Nat.div_le_self u (2 ^ 1))

/-! ### The three SWAR folding steps of `bit_count64` -/

/-- Step 1 of `bit_count64`: popcount of each 2-bit group, in place. -/
def swarStep1 (u : Nat) : Nat := u - ((u >>> 1) &&& 0x5555555555555555)

/-- Step 2 of `bit_count64`: fold 2-bit popcounts into 4-bit groups. -/
def swarStep2 (x : Nat) : Nat :=
  (x &&& 0x3333333333333333) + ((x >>> 2) &&& 0x3333333333333333)

/-- Step 3 of `bit_count64`: fold 4-bit popcounts into byte lanes. -/
def swarStep3 (x : Nat) : Nat := (x + (x >>> 4)) &&& 0xF0F0F0F0F0F0F0F

/-- The three folding steps composed. -/
def swar (u : Nat) : Nat := swarStep3 (swarStep2 (swarStep1 u))

/-- Explicit per-bit popcount of one byte (structural, so it evaluates). -/
def pc8 (x : Nat) : Nat :=
  x % 2 + x / 2 % 2 + x / 4 % 2 + x / 8 % 2 + x / 16 % 2 + x / 32 % 2 +
    x / 64 % 2 + x / 128 % 2

theorem bit_count64_eq_swar (u : Nat) :
    bit_count64 u = ((swar u * 0x101010101010101) % (2 ^ 64)) >>> 56 := rfl

theorem shiftRight_le_self (x n : Nat) : x >>> n ≤ x := by
  rw [Nat.shiftRight_eq_div_pow]
  exact Nat.div_le_self x (2 ^ n)

theorem land_of_lt {x k : Nat} (m : Nat) (hx : x < 2 ^ k) :
    x &&& m = x &&& (m % 2 ^ k) := by
  apply Nat.eq_of_testBit_eq
  intro j
  simp only [Nat.testBit_and, Nat.testBit_mod_two_pow]
  rcases Nat.lt_or_ge j k with h | h
  · simp [h]
  · have hxj : x.testBit j = false :=
      Nat.testBit_lt_two_pow
        (Nat.lt_of_lt_of_le hx (Nat.pow_le_pow_of_le_right Nat.zero_lt_two h))
    simp [hxj]

theorem land_congr_mask {x k : Nat} (mA mB : Nat) (hx : x < 2 ^ k)
    (h : mA % 2 ^ k = mB % 2 ^ k) : x &&& mA = x &&& mB := by
  rw [land_of_lt mA hx, land_of_lt mB hx, h]

/-- `&&&` distributes over the concatenation `2 ^ k * hi + lo`. -/
theorem land_concat {lo : Nat} (k hi m : Nat) (hlo : lo < 2 ^ k) :
    (2 ^ k * hi + lo) &&& m = 2 ^ k * (hi &&& (m >>> k)) + (lo &&& m) := by
  apply Nat.eq_of_testBit_eq
  intro j
  have h1 : lo &&& m < 2 ^ k := Nat.lt_of_le_of_lt Nat.and_le_left hlo
  simp only [Nat.testBit_and, Nat.testBit_mul_pow_two_add _ hlo,
    Nat.testBit_mul_pow_two_add _ h1, Nat.testBit_shiftRight]
  rcases Nat.lt_or_ge j k with h | h
  · simp [h]
  · have hk : k + (j - k) = j := by omega
    simp [Nat.not_lt.2 h, hk]

/-! ### Byte-concatenation lemmas for the SWAR steps -/

theorem swarStep1_concat {a b : Nat} (ha : a < 2 ^ 8) (hb : b < 2 ^ 56) :
    swarStep1 (2 ^ 8 * b + a) = 2 ^ 8 * swarStep1 b + swarStep1 a := by
  have hshift : (2 ^ 8 * b + a) >>> 1
      = 2 ^ 8 * (b >>> 1) + (2 ^ 7 * (b % 2) + a >>> 1) := by
    simp only [Nat.shiftRight_eq_div_pow]
    omega
  have hlow : 2 ^ 7 * (b % 2) + a >>> 1 < 2 ^ 8 := by
    simp only [Nat.shiftRight_eq_div_pow]
    omega
  have h2 : (2 ^ 7 * (b % 2) + a >>> 1) &&& 0x5555555555555555
      = (a >>> 1) &&& 0x5555555555555555 := by
    rcases Nat.mod_two_eq_zero_or_one b with h | h
    · simp [h]
    · rw [h]
      have ha1 : a >>> 1 < 2 ^ 7 := by
        simp only [Nat.shiftRight_eq_div_pow]
        omega
      have hor := Nat.mul_add_lt_is_or ha1 1
      rw [Nat.mul_one] at hor
      rw [Nat.mul_one, hor, Nat.and_distrib_right]
      have hz : (2 ^ 7 : Nat) &&& 0x5555555555555555 = 0 := by decide
      rw [hz, Nat.zero_or]
  have h3 : (b >>> 1) &&& (0x5555555555555555 >>> 8)
      = (b >>> 1) &&& 0x5555555555555555 := by
    apply land_congr_mask
    · exact Nat.lt_of_le_of_lt (shiftRight_le_self b 1) hb
    · decide
  have hmask : ((2 ^ 8 * b + a) >>> 1) &&& 0x5555555555555555
      = 2 ^ 8 * ((b >>> 1) &&& 0x5555555555555555)
        + ((a >>> 1) &&& 0x5555555555555555) := by
    rw [hshift, land_concat 8 _ _ hlow, h2, h3]
  unfold swarStep1
  rw [hmask]
  have e1 := bit_count64_sub_le a
  have e2 := bit_count64_sub_le b
  omega

theorem land_m2_c64 : ∀ c < 4, (2 ^ 6 * c) &&& 0x3333333333333333 = 0 := by decide

theorem swarStep2_concat {a b : Nat} (ha : a < 2 ^ 8) (hb : b < 2 ^ 56) :
    swarStep2 (2 ^ 8 * b + a) = 2 ^ 8 * swarStep2 b + swarStep2 a := by
  have hm2 : ∀ x : Nat, x < 2 ^ 56 →
      x &&& (0x3333333333333333 >>> 8) = x &&& 0x3333333333333333 := by
    intro x hx
    apply land_congr_mask _ _ hx
    decide
  have t1 : (2 ^ 8 * b + a) &&& 0x3333333333333333
      = 2 ^ 8 * (b &&& 0x3333333333333333) + (a &&& 0x3333333333333333) := by
    rw [land_concat 8 _ _ ha, hm2 b hb]
  have hshift : (2 ^ 8 * b + a) >>> 2
      = 2 ^ 8 * (b >>> 2) + (2 ^ 6 * (b % 4) + a >>> 2) := by
    simp only [Nat.shiftRight_eq_div_pow]
    omega
  have hlow : 2 ^ 6 * (b % 4) + a >>> 2 < 2 ^ 8 := by
    simp only [Nat.shiftRight_eq_div_pow]
    omega
  have h2 : (2 ^ 6 * (b % 4) + a >>> 2) &&& 0x3333333333333333
      = (a >>> 2) &&& 0x3333333333333333 := by
    have ha2 : a >>> 2 < 2 ^ 6 := by
      simp only [Nat.shiftRight_eq_div_pow]
      omega
    have hor := Nat.mul_add_lt_is_or ha2 (b % 4)
    rw [hor, Nat.and_distrib_right, land_m2_c64 (b % 4) (by omega), Nat.zero_or]
  have t2 : ((2 ^ 8 * b + a) >>> 2) &&& 0x3333333333333333
      = 2 ^ 8 * ((b >>> 2) &&& 0x3333333333333333)
        + ((a >>> 2) &&& 0x3333333333333333) := by
    rw [hshift, land_concat 8 _ _ hlow, h2,
      hm2 (b >>> 2) (Nat.lt_of_le_of_lt (shiftRight_le_self b 2) hb)]
  unfold swarStep2
  rw [t1, t2]
  ring

theorem land_m4_of_lt {x : Nat} (hx : x < 2 ^ 8) :
    x &&& 0xF0F0F0F0F0F0F0F = x % 16 := by
  rw [land_of_lt _ hx]
  have h15 : (0xF0F0F0F0F0F0F0F : Nat) % 2 ^ 8 = 2 ^ 4 - 1 := by decide
  rw [h15, Nat.and_pow_two_sub_one_eq_mod]

theorem swarStep3_concat {A B : Nat} (hA : A < 2 ^ 8) (hB : B < 2 ^ 55)
    (hA2 : A % 16 + A / 16 < 16) (hA3 : A + A / 16 + 16 * (B % 16) < 2 ^ 8) :
    swarStep3 (2 ^ 8 * B + A) = 2 ^ 8 * swarStep3 B + swarStep3 A := by
  have hshift : (2 ^ 8 * B + A) >>> 4
      = 2 ^ 8 * (B >>> 4) + (2 ^ 4 * (B % 16) + A >>> 4) := by
    simp only [Nat.shiftRight_eq_div_pow]
    omega
  have hsum : (2 ^ 8 * B + A) + ((2 ^ 8 * B + A) >>> 4)
      = 2 ^ 8 * (B + B >>> 4) + (A + (2 ^ 4 * (B % 16) + A >>> 4)) := by
    rw [hshift]
    ring
  have hlow : A + (2 ^ 4 * (B % 16) + A >>> 4) < 2 ^ 8 := by
    simp only [Nat.shiftRight_eq_div_pow]
    omega
  have hr : A + A >>> 4 < 2 ^ 8 := by
    simp only [Nat.shiftRight_eq_div_pow]
    omega
  have hm4 : (B + B >>> 4) &&& (0xF0F0F0F0F0F0F0F >>> 8)
      = (B + B >>> 4) &&& 0xF0F0F0F0F0F0F0F := by
    apply land_congr_mask
    · show B + B >>> 4 < 2 ^ 56
      have := shiftRight_le_self B 4
      omega
    · decide
  unfold swarStep3
  rw [hsum, land_concat 8 _ _ hlow, hm4, land_m4_of_lt hlow, land_m4_of_lt hr]
  have : (A + (2 ^ 4 * (B % 16) + A >>> 4)) % 16 = (A + A >>> 4) % 16 := by
    simp only [Nat.shiftRight_eq_div_pow]
    omega
  rw [this]

set_option maxRecDepth 4000 in
/-- Byte-level facts about the SWAR pipeline, checked exhaustively:
the first two steps keep a byte a byte, bound it by `0x44`, and keep its
nibbles small; the full pipeline computes the byte's popcount. -/
theorem swar_byte_facts : ∀ x < 2 ^ 8,
    swarStep2 (swarStep1 x) < 2 ^ 8 ∧ swarStep2 (swarStep1 x) ≤ 0x44 ∧
    swarStep2 (swarStep1 x) % 16 + swarStep2 (swarStep1 x) / 16 < 16 ∧
    swar x = pc8 x := by decide

/-- The low nibble of any `swarStep2` output is at most 6. -/
theorem swarStep2_mod16_le (y : Nat) : swarStep2 y % 16 ≤ 6 := by
  have h15 : ∀ z : Nat, z % 16 = z &&& (2 ^ 4 - 1) := by
    intro z
    rw [Nat.and_pow_two_sub_one_eq_mod]
  have hU : (y &&& 0x3333333333333333) % 16 ≤ 3 := by
    rw [h15, Nat.and_assoc]
    have hc : (0x3333333333333333 : Nat) &&& (2 ^ 4 - 1) = 3 := by decide
    rw [hc]
    exact Nat.and_le_right
  have hV : ((y >>> 2) &&& 0x3333333333333333) % 16 ≤ 3 := by
    rw [h15, Nat.and_assoc]
    have hc : (0x3333333333333333 : Nat) &&& (2 ^ 4 - 1) = 3 := by decide
    rw [hc]
    exact Nat.and_le_right
  unfold swarStep2
  omega

/-- `swarStep2` of a 56-bit value fits in 55 bits. -/
theorem swarStep2_lt_55 {y : Nat} (hy : y < 2 ^ 56) : swarStep2 y < 2 ^ 55 := by
  have h1 : y &&& 0x3333333333333333 ≤ 0x33333333333333 := by
    rw [land_of_lt _ hy]
    have : (0x3333333333333333 : Nat) % 2 ^ 56 = 0x33333333333333 := by decide
    rw [this]
    exact Nat.and_le_right
  have hy2 : y >>> 2 < 2 ^ 56 := Nat.lt_of_le_of_lt (shiftRight_le_self y 2) hy
  have h2 : (y >>> 2) &&& 0x3333333333333333 ≤ 0x33333333333333 := by
    rw [land_of_lt _ hy2]
    have : (0x3333333333333333 : Nat) % 2 ^ 56 = 0x33333333333333 := by decide
    rw [this]
    exact Nat.and_le_right
  unfold swarStep2
  omega

/-- `swarStep1` never increases its argument. -/
theorem swarStep1_le (u : Nat) : swarStep1 u ≤ u := Nat.sub_le u _

/-- The composed SWAR pipeline distributes over splitting off the low byte. -/
theorem swar_concat {a b : Nat} (ha : a < 2 ^ 8) (hb : b < 2 ^ 56) :
    swar (2 ^ 8 * b + a) = 2 ^ 8 * swar b + swar a := by
  have ha1 : swarStep1 a < 2 ^ 8 := Nat.lt_of_le_of_lt (swarStep1_le a) ha
  have hb1 : swarStep1 b < 2 ^ 56 := Nat.lt_of_le_of_lt (swarStep1_le b) hb
  obtain ⟨hA1, hA2, hA3, -⟩ := swar_byte_facts a ha
  unfold swar
  rw [swarStep1_concat ha hb, swarStep2_concat ha1 hb1]
  apply swarStep3_concat hA1 (swarStep2_lt_55 hb1) hA3
  have h6 := swarStep2_mod16_le (swarStep1 b)
  have hdiv : swarStep2 (swarStep1 a) / 16 ≤ 4 := by omega
  omega

/-! ### The horizontal byte sum performed by the multiplication -/

theorem mul_shift_extract {H S L : Nat} (hS : S ≤ 64) (hL : L < 2 ^ 56) :
    ((2 ^ 64 * H + (2 ^ 56 * S + L)) % 2 ^ 64) / 2 ^ 56 = S := by
  omega

/-- Multiplying the byte-lane popcounts by `0x0101010101010101` and keeping
the top byte of the truncated product adds the eight lanes. -/
theorem horizontal_sum (p0 p1 p2 p3 p4 p5 p6 p7 : Nat)
    (h0 : p0 ≤ 8) (h1 : p1 ≤ 8) (h2 : p2 ≤ 8) (h3 : p3 ≤ 8)
    (h4 : p4 ≤ 8) (h5 : p5 ≤ 8) (h6 : p6 ≤ 8) (h7 : p7 ≤ 8) :
    (((2 ^ 8 * (2 ^ 8 * (2 ^ 8 * (2 ^ 8 * (2 ^ 8 * (2 ^ 8 * (2 ^ 8 * p7 + p6) + p5)
            + p4) + p3) + p2) + p1) + p0)
        * 0x101010101010101) % (2 ^ 64)) >>> 56
      = p0 + p1 + p2 + p3 + p4 + p5 + p6 + p7 := by
  rw [Nat.shiftRight_eq_div_pow]
  have key : (2 ^ 8 * (2 ^ 8 * (2 ^ 8 * (2 ^ 8 * (2 ^ 8 * (2 ^ 8 * (2 ^ 8 * p7 + p6) + p5)
            + p4) + p3) + p2) + p1) + p0) * 0x101010101010101
      = 2 ^ 64 * ((p1 + p2 + p3 + p4 + p5 + p6 + p7)
            + 2 ^ 8 * ((p2 + p3 + p4 + p5 + p6 + p7)
            + 2 ^ 8 * ((p3 + p4 + p5 + p6 + p7)
            + 2 ^ 8 * ((p4 + p5 + p6 + p7)
            + 2 ^ 8 * ((p5 + p6 + p7)
            + 2 ^ 8 * ((p6 + p7)
            + 2 ^ 8 * p7))))))
        + (2 ^ 56 * (p0 + p1 + p2 + p3 + p4 + p5 + p6 + p7)
          + (p0
            + 2 ^ 8 * ((p0 + p1)
            + 2 ^ 8 * ((p0 + p1 + p2)
            + 2 ^ 8 * ((p0 + p1 + p2 + p3)
            + 2 ^ 8 * ((p0 + p1 + p2 + p3 + p4)
            + 2 ^ 8 * ((p0 + p1 + p2 + p3 + p4 + p5)
            + 2 ^ 8 * (p0 + p1 + p2 + p3 + p4 + p5 + p6)))))))) := by
    ring
  rw [key, mul_shift_extract (by omega) (by omega)]

/-! ### `popcount` facts -/

theorem popcount_zero : popcount 0 = 0 := by
  simp [popcount]

theorem popcount_eq_pc8 {x : Nat} (h : x < 2 ^ 8) : popcount x = pc8 x := by
  have hz : x / 256 = 0 := by omega
  have key : popcount x
      = x % 2 + (x / 2 % 2 + (x / 4 % 2 + (x / 8 % 2 + (x / 16 % 2 + (x / 32 % 2
          + (x / 64 % 2 + (x / 128 % 2 + popcount (x / 256)))))))) :=
    calc popcount x = x % 2 + popcount (x / 2) := popcount_div2 x
      _ = x % 2 + (x / 2 % 2 + popcount (x / 4)) := by
          rw [popcount_div2 (x / 2), Nat.div_div_eq_div_mul]
      _ = x % 2 + (x / 2 % 2 + (x / 4 % 2 + popcount (x / 8))) := by
          rw [popcount_div2 (x / 4), Nat.div_div_eq_div_mul]
      _ = x % 2 + (x / 2 % 2 + (x / 4 % 2 + (x / 8 % 2 + popcount (x / 16)))) := by
          rw [popcount_div2 (x / 8), Nat.div_div_eq_div_mul]
      _ = x % 2 + (x / 2 % 2 + (x / 4 % 2 + (x / 8 % 2 + (x / 16 % 2
            + popcount (x / 32))))) := by
          rw [popcount_div2 (x / 16), Nat.div_div_eq_div_mul]
      _ = x % 2 + (x / 2 % 2 + (x / 4 % 2 + (x / 8 % 2 + (x / 16 % 2 + (x / 32 % 2
            + popcount (x / 64)))))) := by
          rw [popcount_div2 (x / 32), Nat.div_div_eq_div_mul]
      _ = x % 2 + (x / 2 % 2 + (x / 4 % 2 + (x / 8 % 2 + (x / 16 % 2 + (x / 32 % 2
            + (x / 64 % 2 + popcount (x / 128))))))) := by
          rw [popcount_div2 (x / 64), Nat.div_div_eq_div_mul]
      _ = x % 2 + (x / 2 % 2 + (x / 4 % 2 + (x / 8 % 2 + (x / 16 % 2 + (x / 32 % 2
            + (x / 64 % 2 + (x / 128 % 2 + popcount (x / 256)))))))) := by
          rw [popcount_div2 (x / 128), Nat.div_div_eq_div_mul]
  rw [key, hz, popcount_zero]
  unfold pc8
  ring

set_option maxRecDepth 4000 in
theorem pc8_le : ∀ x < 2 ^ 8, pc8 x ≤ 8 := by decide

/-- `popcount` splits over a concatenation `2 ^ k * hi + lo`. -/
theorem popcount_concat {a : Nat} (k b : Nat) (ha : a < 2 ^ k) :
    popcount (2 ^ k * b + a) = popcount b + popcount a := by
  induction k generalizing a with
  | zero =>
    have ha0 : a = 0 := by omega
    subst ha0
    simp [popcount_zero]
  | succ k ih =>
    have hp : (2 : Nat) ^ (k + 1) = 2 * 2 ^ k := by ring
    have h2 : 2 ^ (k + 1) * b + a = 2 * (2 ^ k * b) + a := by
      rw [hp]
      ring
    rw [h2, popcount_div2 (2 * (2 ^ k * b) + a)]
    have hmod : (2 * (2 ^ k * b) + a) % 2 = a % 2 := by omega
    have hdiv : (2 * (2 ^ k * b) + a) / 2 = 2 ^ k * b + a / 2 := by omega
    rw [hmod, hdiv, ih (by omega), popcount_div2 a]
    omega

theorem popcount_split (y : Nat) :
    popcount y = popcount (y / 2 ^ 8) + popcount (y % 2 ^ 8) := by
  have hd : y = 2 ^ 8 * (y / 2 ^ 8) + y % 2 ^ 8 := by omega
  conv_lhs => rw [hd]
  exact popcount_concat 8 _ (Nat.mod_lt _ (by norm_num))

/-! ### Correctness of `bit_count64` -/

/-- `bit_count64` computes the population count of every 64-bit word. -/
theorem bit_count64_eq_popcount {u : Nat} (hu : u < 2 ^ 64) :
    bit_count64 u = popcount u := by
  have hbyte : ∀ v : Nat, v % 2 ^ 8 < 2 ^ 8 := fun v => Nat.mod_lt _ (by norm_num)
  have h56 : u / 2 ^ 56 < 2 ^ 8 := by omega
  have hd0 : u = 2 ^ 8 * (u / 2 ^ 8) + u % 2 ^ 8 := by omega
  have hd1 : u / 2 ^ 8 = 2 ^ 8 * (u / 2 ^ 16) + u / 2 ^ 8 % 2 ^ 8 := by omega
  have hd2 : u / 2 ^ 16 = 2 ^ 8 * (u / 2 ^ 24) + u / 2 ^ 16 % 2 ^ 8 := by omega
  have hd3 : u / 2 ^ 24 = 2 ^ 8 * (u / 2 ^ 32) + u / 2 ^ 24 % 2 ^ 8 := by omega
  have hd4 : u / 2 ^ 32 = 2 ^ 8 * (u / 2 ^ 40) + u / 2 ^ 32 % 2 ^ 8 := by omega
  have hd5 : u / 2 ^ 40 = 2 ^ 8 * (u / 2 ^ 48) + u / 2 ^ 40 % 2 ^ 8 := by omega
  have hd6 : u / 2 ^ 48 = 2 ^ 8 * (u / 2 ^ 56) + u / 2 ^ 48 % 2 ^ 8 := by omega
  have hw1 : u / 2 ^ 8 < 2 ^ 56 := by omega
  have hw2 : u / 2 ^ 16 < 2 ^ 56 := by omega
  have hw3 : u / 2 ^ 24 < 2 ^ 56 := by omega
  have hw4 : u / 2 ^ 32 < 2 ^ 56 := by omega
  have hw5 : u / 2 ^ 40 < 2 ^ 56 := by omega
  have hw6 : u / 2 ^ 48 < 2 ^ 56 := by omega
  have hw7 : u / 2 ^ 56 < 2 ^ 56 := by omega
  have e0 : swar u = 2 ^ 8 * swar (u / 2 ^ 8) + swar (u % 2 ^ 8) := by
    conv_lhs => rw [hd0]
    exact swar_concat (hbyte u) hw1
  have e1 : swar (u / 2 ^ 8)
      = 2 ^ 8 * swar (u / 2 ^ 16) + swar (u / 2 ^ 8 % 2 ^ 8) := by
    conv_lhs => rw [hd1]
    exact swar_concat (hbyte _) hw2
  have e2 : swar (u / 2 ^ 16)
      = 2 ^ 8 * swar (u / 2 ^ 24) + swar (u / 2 ^ 16 % 2 ^ 8) := by
    conv_lhs => rw [hd2]
    exact swar_concat (hbyte _) hw3
  have e3 : swar (u / 2 ^ 24)
      = 2 ^ 8 * swar (u / 2 ^ 32) + swar (u / 2 ^ 24 % 2 ^ 8) := by
    conv_lhs => rw [hd3]
    exact swar_concat (hbyte _) hw4
  have e4 : swar (u / 2 ^ 32)
      = 2 ^ 8 * swar (u / 2 ^ 40) + swar (u / 2 ^ 32 % 2 ^ 8) := by
    conv_lhs => rw [hd4]
    exact swar_concat (hbyte _) hw5
  have e5 : swar (u / 2 ^ 40)
      = 2 ^ 8 * swar (u / 2 ^ 48) + swar (u / 2 ^ 40 % 2 ^ 8) := by
    conv_lhs => rw [hd5]
    exact swar_concat (hbyte _) hw6
  have e6 : swar (u / 2 ^ 48)
      = 2 ^ 8 * swar (u / 2 ^ 56) + swar (u / 2 ^ 48 % 2 ^ 8) := by
    conv_lhs => rw [hd6]
    exact swar_concat (hbyte _) hw7
  have b0 := (swar_byte_facts _ (hbyte u)).2.2.2
  have b1 := (swar_byte_facts _ (hbyte (u / 2 ^ 8))).2.2.2
  have b2 := (swar_byte_facts _ (hbyte (u / 2 ^ 16))).2.2.2
  have b3 := (swar_byte_facts _ (hbyte (u / 2 ^ 24))).2.2.2
  have b4 := (swar_byte_facts _ (hbyte (u / 2 ^ 32))).2.2.2
  have b5 := (swar_byte_facts _ (hbyte (u / 2 ^ 40))).2.2.2
  have b6 := (swar_byte_facts _ (hbyte (u / 2 ^ 48))).2.2.2
  have b7 := (swar_byte_facts _ h56).2.2.2
  rw [bit_count64_eq_swar, e0, e1, e2, e3, e4, e5, e6,
    b0, b1, b2, b3, b4, b5, b6, b7,
    horizontal_sum _ _ _ _ _ _ _ _
      (pc8_le _ (hbyte u)) (pc8_le _ (hbyte _)) (pc8_le _ (hbyte _))
      (pc8_le _ (hbyte _)) (pc8_le _ (hbyte _)) (pc8_le _ (hbyte _))
      (pc8_le _ (hbyte _)) (pc8_le _ h56)]
  have d1 : u / 2 ^ 8 / 2 ^ 8 = u / 2 ^ 16 := by
    rw [Nat.div_div_eq_div_mul]
    norm_num
  have d2 : u / 2 ^ 16 / 2 ^ 8 = u / 2 ^ 24 := by
    rw [Nat.div_div_eq_div_mul]
    norm_num
  have d3 : u / 2 ^ 24 / 2 ^ 8 = u / 2 ^ 32 := by
    rw [Nat.div_div_eq_div_mul]
    norm_num
  have d4 : u / 2 ^ 32 / 2 ^ 8 = u / 2 ^ 40 := by
    rw [Nat.div_div_eq_div_mul]
    norm_num
  have d5 : u / 2 ^ 40 / 2 ^ 8 = u / 2 ^ 48 := by
    rw [Nat.div_div_eq_div_mul]
    norm_num
  have d6 : u / 2 ^ 48 / 2 ^ 8 = u / 2 ^ 56 := by
    rw [Nat.div_div_eq_div_mul]
    norm_num
  have c0 : popcount u = popcount (u / 2 ^ 8) + pc8 (u % 2 ^ 8) := by
    rw [popcount_split u, popcount_eq_pc8 (hbyte u)]
  have c1 : popcount (u / 2 ^ 8)
      = popcount (u / 2 ^ 16) + pc8 (u / 2 ^ 8 % 2 ^ 8) := by
    rw [popcount_split (u / 2 ^ 8), d1, popcount_eq_pc8 (hbyte _)]
  have c2 : popcount (u / 2 ^ 16)
      = popcount (u / 2 ^ 24) + pc8 (u / 2 ^ 16 % 2 ^ 8) := by
    rw [popcount_split (u / 2 ^ 16), d2, popcount_eq_pc8 (hbyte _)]
  have c3 : popcount (u / 2 ^ 24)
      = popcount (u / 2 ^ 32) + pc8 (u / 2 ^ 24 % 2 ^ 8) := by
    rw [popcount_split (u / 2 ^ 24), d3, popcount_eq_pc8 (hbyte _)]
  have c4 : popcount (u / 2 ^ 32)
      = popcount (u / 2 ^ 40) + pc8 (u / 2 ^ 32 % 2 ^ 8) := by
    rw [popcount_split (u / 2 ^ 32), d4, popcount_eq_pc8 (hbyte _)]
  have c5 : popcount (u / 2 ^ 40)
      = popcount (u / 2 ^ 48) + pc8 (u / 2 ^ 40 % 2 ^ 8) := by
    rw [popcount_split (u / 2 ^ 40), d5, popcount_eq_pc8 (hbyte _)]
  have c6 : popcount (u / 2 ^ 48)
      = popcount (u / 2 ^ 56) + pc8 (u / 2 ^ 48 % 2 ^ 8) := by
    rw [popcount_split (u / 2 ^ 48), d6, popcount_eq_pc8 (hbyte _)]
  have c7 : popcount (u / 2 ^ 56) = pc8 (u / 2 ^ 56) := popcount_eq_pc8 h56
  have hp := c0
  rw [c1, c2, c3, c4, c5, c6, c7] at hp
  rw [hp]
  ring

/-! ### List helpers for the word-vector loops -/

theorem getD_eq_get {l : List Nat} {n : Nat} (h : n < l.length) :
    l.getD n 0 = l[n] := by
  rw [List.getD_eq_getElem?_getD, List.getElem?_eq_getElem h]
  rfl

theorem range_getD_map (l : List Nat) (f : Nat → Nat) :
    (List.range l.length).map (fun n => f (l.getD n 0)) = l.map f := by
  apply List.ext_getElem
  · simp
  · intro n h1 h2
    simp only [List.getElem_map, List.getElem_range]
    rw [getD_eq_get (by simpa using h2)]

/-- Apply `f` to the first `n` elements of a list, keep the rest. -/
def mapUpTo (f : Nat → Nat) : Nat → List Nat → List Nat
  | _, [] => []
  | 0, l => l
  | n + 1, a :: t => f a :: mapUpTo f n t

theorem mapUpTo_zero (f : Nat → Nat) (l : List Nat) : mapUpTo f 0 l = l := by
  cases l <;> rfl

theorem mapUpTo_set (f : Nat → Nat) :
    ∀ (n : Nat) (l : List Nat), n < l.length →
      (mapUpTo f n l).set n (f ((mapUpTo f n l).getD n 0)) = mapUpTo f (n + 1) l
  | 0, a :: t, _ => by
    show (a :: t).set 0 (f ((a :: t).getD 0 0)) = f a :: mapUpTo f 0 t
    rw [mapUpTo_zero, List.getD_cons_zero, List.set_cons_zero]
  | n + 1, a :: t, h => by
    show (f a :: mapUpTo f n t).set (n + 1)
        (f ((f a :: mapUpTo f n t).getD (n + 1) 0)) = f a :: mapUpTo f (n + 1) t
    rw [List.set_cons_succ, List.getD_cons_succ]
    exact congrArg (f a :: ·) (mapUpTo_set f n t (by simpa using h))

theorem mapUpTo_full (f : Nat → Nat) :
    ∀ l : List Nat, mapUpTo f l.length l = l.map f
  | [] => rfl
  | a :: t => by
    show f a :: mapUpTo f t.length t = f a :: t.map f
    rw [mapUpTo_full f t]

/-- The source loop `for i in 0..n { bits[i] = f(bits[i]) }` maps `f` over
the first `n` entries. -/
theorem foldl_set_range (f : Nat → Nat) :
    ∀ (n : Nat) (l : List Nat), n ≤ l.length →
      (List.range n).foldl (fun bs i => bs.set i (f (bs.getD i 0))) l
        = mapUpTo f n l := by
  intro n
  induction n with
  | zero =>
    intro l h
    exact (mapUpTo_zero f l).symm
  | succ n ih =>
    intro l h
    rw [List.range_succ, List.foldl_append, ih l (by omega)]
    show (mapUpTo f n l).set n (f ((mapUpTo f n l).getD n 0)) = mapUpTo f (n + 1) l
    exact mapUpTo_set f n l (by omega)

/-! ### Single-bit mask lemmas -/

theorem one_shiftLeft_eq (m : Nat) : (0x1 <<< m) = 2 ^ m := by
  rw [Nat.shiftLeft_eq, Nat.one_mul]

theorem land1_eq_testBit (w m : Nat) :
    (((w >>> m) &&& 0x1) == 0x1) = w.testBit m := by
  unfold Nat.testBit
  rw [Nat.and_one_is_mod, Nat.one_and_eq_mod_two]
  rcases Nat.mod_two_eq_zero_or_one (w >>> m) with h | h <;> rw [h] <;> rfl

theorem or_bit_testBit_self (w m : Nat) : (w ||| (0x1 <<< m)).testBit m = true := by
  rw [one_shiftLeft_eq]
  simp [Nat.testBit_or, Nat.testBit_two_pow_self]

theorem or_bit_testBit_ne (w m k : Nat) (h : k ≠ m) :
    (w ||| (0x1 <<< m)).testBit k = w.testBit k := by
  rw [one_shiftLeft_eq]
  simp [Nat.testBit_or, Nat.testBit_two_pow_of_ne (fun hh => h hh.symm)]

theorem and_not_bit_testBit_self (w m : Nat) (hm : m < 64) :
    (w &&& not64 (0x1 <<< m)).testBit m = false := by
  unfold not64
  rw [one_shiftLeft_eq]
  simp only [Nat.testBit_and, Nat.testBit_xor, Nat.testBit_two_pow_sub_one,
    Nat.testBit_two_pow_self]
  simp [hm]

theorem and_not_bit_testBit_ne (w m k : Nat) (hw : w < 2 ^ 64) (h : k ≠ m) :
    (w &&& not64 (0x1 <<< m)).testBit k = w.testBit k := by
  unfold not64
  rw [one_shiftLeft_eq]
  rcases Nat.lt_or_ge k 64 with hk | hk
  · simp only [Nat.testBit_and, Nat.testBit_xor, Nat.testBit_two_pow_sub_one,
      Nat.testBit_two_pow_of_ne (fun hh => h hh.symm)]
    simp [hk]
  · have hwk : w.testBit k = false :=
      Nat.testBit_lt_two_pow
        (Nat.lt_of_lt_of_le hw (Nat.pow_le_pow_of_le_right Nat.zero_lt_two hk))
    simp [Nat.testBit_and, hwk]

theorem not64_involutive (x : Nat) : not64 (not64 x) = x := by
  unfold not64
  rw [← Nat.xor_assoc, Nat.xor_self, Nat.zero_xor]

/-! ### Characterizations of the BitSet operations -/

theorem test_some (s : BitSet) (i : Nat) (h : i / 64 < s.bits.length) :
    BitSet.test s i
      = Option.some ((s.bits.getD (i / 64) 0).testBit (i % 64)) := by
  unfold BitSet.test
  rw [getD_eq_get h]
  simp only [List.getElem?_eq_getElem h, land1_eq_testBit]

theorem test_none_of_ge (s : BitSet) (i : Nat) (h : s.bits.length ≤ i / 64) :
    BitSet.test s i = Option.none := by
  unfold BitSet.test
  rw [List.getElem?_eq_none h]

theorem set_of_lt (s : BitSet) (i : Nat) (v : Bool) (h : i / 64 < s.bits.length) :
    BitSet.set s i v = { s with
      bits := s.bits.set (i / 64)
          (if v then s.bits.getD (i / 64) 0 ||| (0x1 <<< (i % 64))
           else s.bits.getD (i / 64) 0 &&& not64 (0x1 <<< (i % 64))) } := by
  unfold BitSet.set
  rw [getD_eq_get h]
  simp only [List.getElem?_eq_getElem h]

theorem set_of_ge (s : BitSet) (i : Nat) (v : Bool)
    (h : s.bits.length ≤ i / 64) : BitSet.set s i v = s := by
  unfold BitSet.set
  rw [List.getElem?_eq_none h]

theorem flip_of_lt (s : BitSet) (i : Nat) (h : i / 64 < s.bits.length) :
    BitSet.flip s i = { s with
      bits := s.bits.set (i / 64)
          (if (s.bits.getD (i / 64) 0).testBit (i % 64)
           then s.bits.getD (i / 64) 0 &&& not64 (0x1 <<< (i % 64))
           else s.bits.getD (i / 64) 0 ||| (0x1 <<< (i % 64))) } := by
  unfold BitSet.flip
  rw [getD_eq_get h]
  simp only [List.getElem?_eq_getElem h, land1_eq_testBit]

theorem flip_of_ge (s : BitSet) (i : Nat)
    (h : s.bits.length ≤ i / 64) : BitSet.flip s i = s := by
  unfold BitSet.flip
  rw [List.getElem?_eq_none h]

theorem reset_bits (s : BitSet) (h : s.bits.length = s.blocks) :
    (BitSet.reset s).bits = List.replicate s.bits.length 0 := by
  have hf := foldl_set_range (fun _ => 0) s.blocks s.bits (by omega)
  have h2 : mapUpTo (fun _ => 0) s.blocks s.bits
      = List.replicate s.bits.length 0 := by
    rw [← h, mapUpTo_full]
    exact List.map_const' s.bits 0
  exact hf.trans h2

theorem flip_all_bits (s : BitSet) (h : s.bits.length = s.blocks) :
    (BitSet.flip_all s).bits = s.bits.map not64 := by
  have hf := foldl_set_range not64 s.blocks s.bits (by omega)
  have h2 : mapUpTo not64 s.blocks s.bits = s.bits.map not64 := by
    rw [← h, mapUpTo_full]
  exact hf.trans h2

theorem foldl_add_eq_sum : ∀ (l : List Nat) (c : Nat),
    l.foldl (fun sum i => sum + i) c = c + l.sum
  | [], c => by simp
  | a :: t, c => by
    rw [List.foldl_cons, foldl_add_eq_sum t (c + a), List.sum_cons]
    omega

theorem count_eq_sum (s : BitSet) (h : s.bits.length = s.blocks) :
    BitSet.count s = (s.bits.map bit_count64).sum := by
  unfold BitSet.count
  rw [← h, range_getD_map, foldl_add_eq_sum, Nat.zero_add]

/-! ### Structure equality helper -/

theorem bitset_eq : ∀ {a b : BitSet}, a.bits = b.bits → a.nbits = b.nbits → a = b
  | ⟨_, _⟩, ⟨_, _⟩, rfl, rfl => rfl

theorem blocks_update_bits (s : BitSet) (b : List Nat) :
    BitSet.blocks { s with bits := b } = s.blocks := rfl

/-! ### The claims -/

/-- C1: for every 64-bit word `w`, `bit_count64 w` is exactly the number of
1-bits of `w`; in particular the popcount of `0`, `1`, `3` and the all-ones
word are `0`, `1`, `2` and `64`. -/
theorem C1_bit_count64_is_popcount :
    (∀ u : Nat, u < 2 ^ 64 → bit_count64 u = popcount u)
    ∧ bit_count64 0 = 0 ∧ bit_count64 1 = 1 ∧ bit_count64 3 = 2
    ∧ bit_count64 (2 ^ 64 - 1) = 64 :=
  ⟨fun _ hu => bit_count64_eq_popcount hu, by decide, by decide, by decide,
    by decide⟩

/-- Witness for C1 at `3` and at the all-ones word. -/
theorem C1_witness :
    ((3 : Nat) < 2 ^ 64 ∧ bit_count64 3 = popcount 3)
    ∧ ((2 ^ 64 - 1 : Nat) < 2 ^ 64
        ∧ bit_count64 (2 ^ 64 - 1) = popcount (2 ^ 64 - 1)) :=
  ⟨⟨by decide, C1_bit_count64_is_popcount.1 3 (by decide)⟩,
   ⟨by decide, C1_bit_count64_is_popcount.1 (2 ^ 64 - 1) (by decide)⟩⟩

/-- C2: `count` sums the population counts of all allocated words in full,
padding bits included (no masking of the final word). -/
theorem C2_count_sums_all_words (s : BitSet) (h : BitSet.Wf s) :
    BitSet.count s = (s.bits.map popcount).sum := by
  obtain ⟨hlen, hword⟩ := h
  rw [count_eq_sum s hlen]
  congr 1
  exact List.map_congr_left fun w hw => bit_count64_eq_popcount (hword w hw)

/-- Witness for C2 on a two-word bitset with padding-free words. -/
theorem C2_witness :
    BitSet.Wf (BitSet.from_vec64 [5, 2 ^ 64 - 1])
    ∧ BitSet.count (BitSet.from_vec64 [5, 2 ^ 64 - 1])
        = ((BitSet.from_vec64 [5, 2 ^ 64 - 1]).bits.map popcount).sum :=
  ⟨⟨by decide, by decide⟩,
    C2_count_sums_all_words (BitSet.from_vec64 [5, 2 ^ 64 - 1])
      ⟨by decide, by decide⟩⟩

/-- C3: a `set` or `flip` whose word index is at or beyond the allocated
word count is a silent no-op: the whole state is unchanged. -/
theorem C3_out_of_range_writes_are_noops (s : BitSet) (i : Nat)
    (h : s.bits.length ≤ i / 64) :
    (∀ v : Bool, BitSet.set s i v = s) ∧ BitSet.flip s i = s :=
  ⟨fun v => set_of_ge s i v h, flip_of_ge s i h⟩

/-- Witness for C3 at index 64 of a one-word bitset. -/
theorem C3_witness :
    (BitSet.from_u64 7).bits.length ≤ 64 / 64
    ∧ BitSet.set (BitSet.from_u64 7) 64 true = BitSet.from_u64 7
    ∧ BitSet.flip (BitSet.from_u64 7) 64 = BitSet.from_u64 7 :=
  ⟨by decide,
    (C3_out_of_range_writes_are_noops (BitSet.from_u64 7) 64 (by decide)).1 true,
    (C3_out_of_range_writes_are_noops (BitSet.from_u64 7) 64 (by decide)).2⟩

/-- In-range indices stay below the allocated word count. -/
theorem div64_lt_of_lt_nbits (s : BitSet) (i : Nat) (hlen : s.bits.length = s.blocks)
    (h : i < s.nbits) : i / 64 < s.bits.length := by
  rw [hlen, blocks_eq_ceil]
  omega

/-- C4: for an in-range index, `test` returns exactly
`(words[index / 64] >> (index % 64)) & 1 == 1`. -/
theorem C4_test_reads_bit (s : BitSet) (i : Nat) (hwf : BitSet.Wf s)
    (h : i < s.nbits) :
    BitSet.test s i
      = Option.some ((((s.bits.getD (i / 64) 0) >>> (i % 64)) &&& 1) == 1) := by
  rw [test_some s i (div64_lt_of_lt_nbits s i hwf.1 h), land1_eq_testBit]

/-- Witness for C4: bit 1 of `from_u64 2`. -/
theorem C4_witness :
    BitSet.Wf (BitSet.from_u64 2) ∧ (1 : Nat) < (BitSet.from_u64 2).nbits
    ∧ BitSet.test (BitSet.from_u64 2) 1
        = Option.some (((((BitSet.from_u64 2).bits.getD (1 / 64) 0) >>> (1 % 64))
            &&& 1) == 1) :=
  ⟨⟨by decide, by decide⟩, by decide,
    C4_test_reads_bit (BitSet.from_u64 2) 1 ⟨by decide, by decide⟩ (by decide)⟩

/-- C5: the invariant `words.len() = blocks = ceil(length / 64)` is
established by every constructor and preserved by every mutator. -/
theorem C5_length_invariant :
    BitSet.new.bits.length = BitSet.new.blocks
    ∧ (∀ n : Nat,
        (BitSet.with_capacity n).bits.length = (BitSet.with_capacity n).blocks)
    ∧ (∀ v : Nat, (BitSet.from_u64 v).bits.length = (BitSet.from_u64 v).blocks)
    ∧ (∀ l : List Nat,
        (BitSet.from_vec64 l).bits.length = (BitSet.from_vec64 l).blocks)
    ∧ (∀ (s : BitSet) (i : Nat) (v : Bool), s.bits.length = s.blocks →
        (BitSet.set s i v).bits.length = (BitSet.set s i v).blocks)
    ∧ (∀ (s : BitSet) (i : Nat), s.bits.length = s.blocks →
        (BitSet.flip s i).bits.length = (BitSet.flip s i).blocks)
    ∧ (∀ s : BitSet, s.bits.length = s.blocks →
        (BitSet.reset s).bits.length = (BitSet.reset s).blocks)
    ∧ (∀ s : BitSet, s.bits.length = s.blocks →
        (BitSet.flip_all s).bits.length = (BitSet.flip_all s).blocks)
    ∧ (∀ s : BitSet, s.blocks = (s.nbits + 63) / 64) := by
  refine ⟨by decide, ?_, ?_, ?_, ?_, ?_, ?_, ?_, blocks_eq_ceil⟩
  · intro n
    show (List.replicate (BitSet.blocks ⟨[], n⟩) 0).length = _
    rw [List.length_replicate]
    rfl
  · intro v
    simp [BitSet.from_u64, BitSet.blocks]
  · intro l
    show l.length = BitSet.blocks ⟨l, l.length * 64⟩
    unfold BitSet.blocks
    have hm : l.length * 64 % 64 = 0 := by omega
    simp only [hm, beq_self_eq_true, if_true]
    omega
  · intro s i v h
    rcases Nat.lt_or_ge (i / 64) s.bits.length with hlt | hge
    · rw [set_of_lt s i v hlt]
      show (s.bits.set _ _).length = s.blocks
      rw [List.length_set, h]
    · rw [set_of_ge s i v hge]
      exact h
  · intro s i h
    rcases Nat.lt_or_ge (i / 64) s.bits.length with hlt | hge
    · rw [flip_of_lt s i hlt]
      show (s.bits.set _ _).length = s.blocks
      rw [List.length_set, h]
    · rw [flip_of_ge s i hge]
      exact h
  · intro s h
    show (BitSet.reset s).bits.length = s.blocks
    rw [reset_bits s h, List.length_replicate, h]
  · intro s h
    show (BitSet.flip_all s).bits.length = s.blocks
    rw [flip_all_bits s h, List.length_map, h]

/-- Witness for C5: the invariant after a concrete `set`. -/
theorem C5_witness :
    (BitSet.from_u64 9).bits.length = (BitSet.from_u64 9).blocks
    ∧ (BitSet.set (BitSet.from_u64 9) 3 true).bits.length
        = (BitSet.set (BitSet.from_u64 9) 3 true).blocks :=
  ⟨by decide,
    C5_length_invariant.2.2.2.2.1 (BitSet.from_u64 9) 3 true (by decide)⟩

/-- C6: two successive `flip_all` calls restore the full state exactly,
padding bits included. -/
theorem C6_flip_all_involution (s : BitSet) (h : BitSet.Wf s) :
    BitSet.flip_all (BitSet.flip_all s) = s := by
  obtain ⟨hlen, -⟩ := h
  have h1 := flip_all_bits s hlen
  have hlen2 : (BitSet.flip_all s).bits.length = (BitSet.flip_all s).blocks := by
    rw [h1, List.length_map, hlen]
    rfl
  have h2 := flip_all_bits (BitSet.flip_all s) hlen2
  rw [h1] at h2
  refine bitset_eq ?_ rfl
  rw [h2, List.map_map]
  have hid : ∀ x ∈ s.bits, (not64 ∘ not64) x = x := fun x _ => not64_involutive x
  rw [List.map_congr_left hid, List.map_id']

/-- Witness for C6 on a two-word bitset. -/
theorem C6_witness :
    BitSet.Wf (BitSet.from_vec64 [3, 5])
    ∧ BitSet.flip_all (BitSet.flip_all (BitSet.from_vec64 [3, 5]))
        = BitSet.from_vec64 [3, 5] :=
  ⟨⟨by decide, by decide⟩,
    C6_flip_all_involution (BitSet.from_vec64 [3, 5]) ⟨by decide, by decide⟩⟩

/-- C7: for a valid index, `set i true` makes `test i` true, and a
subsequent `set i false` makes it false again. -/
theorem C7_set_then_test (s : BitSet) (i : Nat) (hwf : BitSet.Wf s)
    (h : i < s.nbits) :
    BitSet.test (BitSet.set s i true) i = Option.some true
    ∧ BitSet.test (BitSet.set (BitSet.set s i true) i false) i
        = Option.some false := by
  have hlt : i / 64 < s.bits.length := div64_lt_of_lt_nbits s i hwf.1 h
  have hb1 : (BitSet.set s i true).bits
      = s.bits.set (i / 64) (s.bits.getD (i / 64) 0 ||| (0x1 <<< (i % 64))) := by
    rw [set_of_lt s i true hlt]
    rfl
  have hlt1 : i / 64 < (BitSet.set s i true).bits.length := by
    rw [hb1, List.length_set]
    exact hlt
  have hg1 : (BitSet.set s i true).bits.getD (i / 64) 0
      = s.bits.getD (i / 64) 0 ||| (0x1 <<< (i % 64)) := by
    rw [hb1, List.getD_eq_getElem?_getD, List.getElem?_set_self hlt]
    rfl
  constructor
  · rw [test_some _ i hlt1, hg1, or_bit_testBit_self]
  · have hb2 : (BitSet.set (BitSet.set s i true) i false).bits
        = (BitSet.set s i true).bits.set (i / 64)
          ((BitSet.set s i true).bits.getD (i / 64) 0
            &&& not64 (0x1 <<< (i % 64))) := by
      rw [set_of_lt (BitSet.set s i true) i false hlt1]
      rfl
    have hlt2 :
        i / 64 < (BitSet.set (BitSet.set s i true) i false).bits.length := by
      rw [hb2, List.length_set]
      exact hlt1
    have hg2 : (BitSet.set (BitSet.set s i true) i false).bits.getD (i / 64) 0
        = (BitSet.set s i true).bits.getD (i / 64) 0
          &&& not64 (0x1 <<< (i % 64)) := by
      rw [hb2, List.getD_eq_getElem?_getD, List.getElem?_set_self hlt1]
      rfl
    rw [test_some _ i hlt2, hg2, and_not_bit_testBit_self]
    exact Nat.mod_lt i (by omega)

/-- Witness for C7 at bit 99 of a 100-bit bitset. -/
theorem C7_witness :
    BitSet.Wf (BitSet.with_capacity 100)
    ∧ (99 : Nat) < (BitSet.with_capacity 100).nbits
    ∧ (BitSet.test (BitSet.set (BitSet.with_capacity 100) 99 true) 99
          = Option.some true
        ∧ BitSet.test
            (BitSet.set (BitSet.set (BitSet.with_capacity 100) 99 true) 99 false)
            99 = Option.some false) :=
  ⟨⟨by decide, by decide⟩, by decide,
    C7_set_then_test (BitSet.with_capacity 100) 99 ⟨by decide, by decide⟩
      (by decide)⟩

/-- C8: after `reset`, every allocated word is zero, `any` is false and
`count` is zero, whatever the prior state. -/
theorem C8_reset_clears (s : BitSet) (h : BitSet.Wf s) :
    (BitSet.reset s).bits = List.replicate s.blocks 0
    ∧ BitSet.any (BitSet.reset s) = false
    ∧ BitSet.count (BitSet.reset s) = 0 := by
  obtain ⟨hlen, -⟩ := h
  have hb : (BitSet.reset s).bits = List.replicate s.blocks 0 := by
    rw [reset_bits s hlen, hlen]
  have hgz : ∀ x : Nat, (List.replicate s.blocks (0 : Nat)).getD x 0 = 0 := by
    intro x
    rw [List.getD_eq_getElem?_getD, List.getElem?_replicate]
    split <;> rfl
  refine ⟨hb, ?_, ?_⟩
  · unfold BitSet.any
    rw [hb, List.any_eq_false]
    intro x hx
    simp [hgz]
  · have hlen2 : (BitSet.reset s).bits.length = (BitSet.reset s).blocks := by
      rw [hb, List.length_replicate]
      rfl
    rw [count_eq_sum _ hlen2, hb]
    have hmap : (List.replicate s.blocks (0 : Nat)).map bit_count64
        = List.replicate s.blocks 0 := by
      rw [List.map_replicate]
      rfl
    rw [hmap, List.sum_replicate]
    simp

/-- Witness for C8 after setting a bit of a 100-bit bitset. -/
theorem C8_witness :
    BitSet.Wf (BitSet.set (BitSet.with_capacity 100) 5 true)
    ∧ ((BitSet.reset (BitSet.set (BitSet.with_capacity 100) 5 true)).bits
          = List.replicate (BitSet.set (BitSet.with_capacity 100) 5 true).blocks 0
        ∧ BitSet.any (BitSet.reset (BitSet.set (BitSet.with_capacity 100) 5 true))
            = false
        ∧ BitSet.count (BitSet.reset (BitSet.set (BitSet.with_capacity 100) 5 true))
            = 0) :=
  ⟨⟨by decide, by decide⟩,
    C8_reset_clears (BitSet.set (BitSet.with_capacity 100) 5 true)
      ⟨by decide, by decide⟩⟩

/-- C9: an in-range `set` or `flip` changes at most bit `index % 64` of
word `index / 64`: every other word, every other bit of the touched word,
and the logical length are unchanged. -/
theorem C9_single_bit_frame (s : BitSet) (i : Nat) (v : Bool)
    (hwf : BitSet.Wf s) (h : i / 64 < s.bits.length) :
    BitSet.size (BitSet.set s i v) = BitSet.size s
    ∧ BitSet.size (BitSet.flip s i) = BitSet.size s
    ∧ (∀ j : Nat, j ≠ i / 64 →
        (BitSet.set s i v).bits.getD j 0 = s.bits.getD j 0
        ∧ (BitSet.flip s i).bits.getD j 0 = s.bits.getD j 0)
    ∧ (∀ k : Nat, k ≠ i % 64 →
        ((BitSet.set s i v).bits.getD (i / 64) 0).testBit k
          = (s.bits.getD (i / 64) 0).testBit k
        ∧ ((BitSet.flip s i).bits.getD (i / 64) 0).testBit k
          = (s.bits.getD (i / 64) 0).testBit k) := by
  have hw : s.bits.getD (i / 64) 0 < 2 ^ 64 := by
    rw [getD_eq_get h]
    exact hwf.2 _ (List.getElem_mem _)
  have hsset := set_of_lt s i v h
  have hsflip := flip_of_lt s i h
  refine ⟨by rw [hsset]; rfl, by rw [hsflip]; rfl, ?_, ?_⟩
  · intro j hj
    have hne : i / 64 ≠ j := fun hh => hj hh.symm
    constructor
    · rw [hsset]
      show (s.bits.set (i / 64) _).getD j 0 = s.bits.getD j 0
      rw [List.getD_eq_getElem?_getD, List.getElem?_set_ne hne,
        ← List.getD_eq_getElem?_getD]
    · rw [hsflip]
      show (s.bits.set (i / 64) _).getD j 0 = s.bits.getD j 0
      rw [List.getD_eq_getElem?_getD, List.getElem?_set_ne hne,
        ← List.getD_eq_getElem?_getD]
  · intro k hk
    have hg1 : (BitSet.set s i v).bits.getD (i / 64) 0
        = (if v then s.bits.getD (i / 64) 0 ||| (0x1 <<< (i % 64))
           else s.bits.getD (i / 64) 0 &&& not64 (0x1 <<< (i % 64))) := by
      rw [hsset]
      show (s.bits.set (i / 64) _).getD (i / 64) 0 = _
      rw [List.getD_eq_getElem?_getD, List.getElem?_set_self h]
      rfl
    have hg2 : (BitSet.flip s i).bits.getD (i / 64) 0
        = (if (s.bits.getD (i / 64) 0).testBit (i % 64)
           then s.bits.getD (i / 64) 0 &&& not64 (0x1 <<< (i % 64))
           else s.bits.getD (i / 64) 0 ||| (0x1 <<< (i % 64))) := by
      rw [hsflip]
      show (s.bits.set (i / 64) _).getD (i / 64) 0 = _
      rw [List.getD_eq_getElem?_getD, List.getElem?_set_self h]
      rfl
    constructor
    · rw [hg1]
      cases v with
      | false => simpa using and_not_bit_testBit_ne _ (i % 64) k hw hk
      | true => simpa using or_bit_testBit_ne _ (i % 64) k hk
    · rw [hg2]
      cases hcond : (s.bits.getD (i / 64) 0).testBit (i % 64) with
      | false => simpa using or_bit_testBit_ne _ (i % 64) k hk
      | true => simpa using and_not_bit_testBit_ne _ (i % 64) k hw hk

/-- Witness for C9: setting bit 65 of a two-word bitset keeps the size. -/
theorem C9_witness :
    BitSet.Wf (BitSet.from_vec64 [6, 9])
    ∧ 65 / 64 < (BitSet.from_vec64 [6, 9]).bits.length
    ∧ BitSet.size (BitSet.set (BitSet.from_vec64 [6, 9]) 65 true)
        = BitSet.size (BitSet.from_vec64 [6, 9]) :=
  ⟨⟨by decide, by decide⟩, by decide,
    (C9_single_bit_frame (BitSet.from_vec64 [6, 9]) 65 true
      ⟨by decide, by decide⟩ (by decide)).1⟩

/-- C10: the word access inside `test` succeeds exactly when
`index / 64 < allocated words`; with the invariant, an index below the
logical length never fails, while any index at or past
`allocated_words * 64` makes the unchecked access fail. -/
theorem C10_test_access_bound (s : BitSet) (i : Nat) :
    ((∃ b, BitSet.test s i = Option.some b) ↔ i / 64 < s.bits.length)
    ∧ (BitSet.Wf s → i < s.nbits → ∃ b, BitSet.test s i = Option.some b)
    ∧ (s.bits.length * 64 ≤ i → BitSet.test s i = Option.none) := by
  refine ⟨⟨?_, ?_⟩, ?_, ?_⟩
  · rintro ⟨b, hb⟩
    by_contra hlt
    rw [test_none_of_ge s i (by omega)] at hb
    exact Option.noConfusion hb
  · intro hlt
    exact ⟨_, test_some s i hlt⟩
  · intro hwf hi
    exact ⟨_, test_some s i (div64_lt_of_lt_nbits s i hwf.1 hi)⟩
  · intro hge
    exact test_none_of_ge s i (by omega)

/-- Witness for C10: index 64 of a one-word bitset fails the access. -/
theorem C10_witness :
    (BitSet.from_u64 3).bits.length * 64 ≤ 64
    ∧ BitSet.test (BitSet.from_u64 3) 64 = Option.none :=
  ⟨by decide, (C10_test_access_bound (BitSet.from_u64 3) 64).2.2 (by decide)⟩
